import Mathlib

set_option maxRecDepth 8000

/-!
Shallow embedding of the interview orchestration and asynchronous
transcription pipeline (interview.py) together with the retry helper
shared by resume_processing.py and uploaded_resume_processing.py.

Texts are modelled as lists of characters, the per-candidate transcript
file as one such list, exceptions as values of Except String, and the
warehouse results table as a list of rows.
-/

namespace ATS

/-- Boolean test that pat occurs at the start of l.  Building block for
the substring test below. -/
def hasPrefixB : List Char → List Char → Bool
  | [], _ => true
  | _ :: _, [] => false
  | p :: ps, c :: cs => p == c && hasPrefixB ps cs

/-- Boolean substring test over character lists; embeds the Python
membership test of one string in another, as used by the duplicate
check in process_audio_async. -/
def hasInfixB (pat : List Char) : List Char → Bool
  | [] => hasPrefixB pat []
  | c :: l => hasPrefixB pat (c :: l) || hasInfixB pat l

/-- Number of positions of l at which pat starts.  For the pattern
Question, which never overlaps itself (its first character occurs in it
exactly once), this coincides with the non-overlapping occurrence count
computed by the Python count method used in the results route. -/
def occCount (pat : List Char) : List Char → Nat
  | [] => 0
  | c :: l => (if hasPrefixB pat (c :: l) then 1 else 0) + occCount pat l

/-- Character of a single decimal digit. -/
def digitC (d : Nat) : Char := Char.ofNat (48 + d)

/-- Fuel-driven digit expansion; the fuel only serves to make the
recursion structural, and n + 1 units always suffice since the number
of decimal digits of n is at most n + 1. -/
def natCharsAux : Nat → Nat → List Char
  | 0, _ => []
  | fuel + 1, n =>
      if n < 10 then [digitC n] else natCharsAux fuel (n / 10) ++ [digitC (n % 10)]

/-- Decimal digit characters of n; embeds the f-string interpolation of
an integer in interview.py. -/
def natChars (n : Nat) : List Char := natCharsAux (n + 1) n

/-- The characters of the word Question. -/
def qpat : List Char := ['Q', 'u', 'e', 's', 't', 'i', 'o', 'n']

/-- The characters of the word Answer. -/
def ansChars : List Char := ['A', 'n', 's', 'w', 'e', 'r']

/-- Duplicate marker written and searched for by process_audio_async:
the text QuestionN: for a one-based question number N. -/
def marker (n : Nat) : List Char := qpat ++ natChars n ++ [':']

/-- Tail of one stored question/answer block: the AnswerN: line followed
by the answer text and a blank line. -/
def answerTail (n : Nat) (a : List Char) : List Char :=
  ansChars ++ natChars n ++ [':', ' '] ++ a ++ ['\n', '\n']

/-- One stored question/answer block, exactly the qa_entry f-string of
process_audio_async for one-based number n, question q and answer a. -/
def entryQA (n : Nat) (q a : List Char) : List Char :=
  marker n ++ [' '] ++ q ++ ['\n'] ++ answerTail n a

/-- The block without its final newline; used to expose that every
block ends in a newline character. -/
def entryInit (n : Nat) (q a : List Char) : List Char :=
  marker n ++ [' '] ++ q ++ ['\n'] ++ ansChars ++ natChars n ++ [':', ' '] ++ a ++ ['\n']

/-- The block with its leading Question word removed; used to show the
word occurs in a clean block exactly once. -/
def restQA (n : Nat) (q a : List Char) : List Char :=
  natChars n ++ [':'] ++ [' '] ++ q ++ ['\n'] ++ answerTail n a

/-- Idempotent append of process_audio_async: the per-candidate file
content grows by one block unless the marker of the zero-based index i
is already present, in which case the write is skipped.  The candidate
id selects which file is touched; this models the content of that one
file. -/
def appendTS (content : List Char) (i : Nat) (q a : List Char) : List Char :=
  if hasInfixB (marker (i + 1)) content then content else content ++ entryQA (i + 1) q a

/-- One recorded append request: zero-based question index, question
text and answer text. -/
structure AppendRec where
  idx : Nat
  ques : List Char
  ansT : List Char
deriving DecidableEq

/-- A request whose question and answer texts do not contain the word
Question. -/
def CleanRec (r : AppendRec) : Prop :=
  hasInfixB qpat r.ques = false ∧ hasInfixB qpat r.ansT = false

instance decCleanRec (r : AppendRec) : Decidable (CleanRec r) :=
  inferInstanceAs (Decidable (_ ∧ _))

/-- Fold a sequence of append requests over the store content. -/
def applyAppends (content : List Char) : List AppendRec → List Char
  | [] => content
  | r :: l => applyAppends (appendTS content r.idx r.ques r.ansT) l

/-- Concatenation of the blocks of a list of append requests; the shape
the store content takes when no append is skipped. -/
def concatRecs : List AppendRec → List Char
  | [] => []
  | r :: l => entryQA (r.idx + 1) r.ques r.ansT ++ concatRecs l

/-- Candidate record returned by authenticate_candidate. -/
structure Candidate where
  id : Nat
  name : String
  email : String
  phone : String
  resume : String
deriving DecidableEq

/-- Flask session data of one candidate: questions, current index and
accumulated transcript, as written by the login route. -/
structure Session where
  info : Candidate
  questions : List (List Char)
  index : Nat
  transcript : List (List Char × List Char)
deriving DecidableEq

/-- Payload of one submit_answer request: recorded audio or a literal
text answer. -/
inductive Payload
  | audio (handle : List Char)
  | text (ansT : List Char)

/-- The submit_answer route.  The question at the current index is read
first; an out-of-range index raises before any mutation, modelled as
none.  On success the transcript gains one pair, the index advances by
one, and on the audio path a transcription task
(candidate id, zero-based index, question) is handed to the pool. -/
def submit_answer (s : Session) (p : Payload) :
    Option (Session × Option (Nat × Nat × List Char)) :=
  if h : s.index < s.questions.length then
    let q := s.questions.get ⟨s.index, h⟩
    match p with
    | .audio _ =>
        some ({ s with transcript := s.transcript ++ [(q, "[Processing...]".toList)],
                       index := s.index + 1 },
              some (s.info.id, s.index, q))
    | .text a =>
        some ({ s with transcript := s.transcript ++ [(q, a)],
                       index := s.index + 1 },
              none)
  else none

/-- Iterate submit_answer over a list of payloads; a failing call leaves
the session unchanged, as the route raises before mutating. -/
def runSubmits (s : Session) : List Payload → Session
  | [] => s
  | p :: ps =>
      runSubmits (match submit_answer s p with
                  | some o => o.1
                  | none => s) ps

/-- Outcome of the login route. -/
inductive LoginResult
  | alreadyDone
  | started (s : Session)
  | invalidId
deriving DecidableEq

/-- check_duplicate_interview: counts warehouse rows for the id, and on
any query exception returns false. -/
def check_duplicate_interview (res : Except String (List Nat)) : Bool :=
  match res with
  | .ok rows => decide (0 < rows.length)
  | .error _ => false

/-- The login POST handler: duplicate check first, then candidate
lookup, then question generation.  The generated list is stored in the
session unvalidated; a generation or JSON parse failure propagates as
an exception and no session is created. -/
def login (dup : Bool) (info : Option Candidate)
    (gen : Except String (List (List Char))) : Except String LoginResult :=
  if dup then .ok .alreadyDone
  else
    match info with
    | none => .ok .invalidId
    | some c =>
        match gen with
        | .error e => .error e
        | .ok qs => .ok (.started ⟨c, qs, 0, []⟩)

/-- Keywords whose presence in a lowercased error message classifies it
as transient, from retry_with_backoff in
uploaded_resume_processing.py (the copy in resume_processing.py omits
the exhaust keyword but is otherwise identical). -/
def transientKeys : List String := ["resource", "quota", "exhaust", "rate", "limit"]

/-- ASCII lowercasing of one character, modelling the Python lower
method on the ASCII exception messages the retry helper inspects. -/
def charLower (c : Char) : Char :=
  if 65 ≤ c.toNat && c.toNat ≤ 90 then Char.ofNat (c.toNat + 32) else c

/-- Transient-error classification of retry_with_backoff. -/
def isTransient (msg : String) : Bool :=
  transientKeys.any fun k => hasInfixB k.toList (msg.toList.map charLower)

/-- Message of the exception raised when all retry attempts are
exhausted. -/
def exhaustMsg : String := "❌ Max retries reached — still failing."

/-- Attempt numbers visited by the retry loop: 1, 2, ..., m. -/
def attemptList (m : Nat) : List Nat := (List.range m).map (· + 1)

/-- Body of the retry loop.  The operation is modelled as a function
from the attempt number to its outcome; the returned list records the
sleep durations, each base times attempt plus the jitter drawn for that
attempt. -/
def retryGo (f : Nat → Except String α) (jit : Nat → ℚ) (base : ℚ) :
    List Nat → Except String α × List ℚ
  | [] => (.error exhaustMsg, [])
  | a :: rest =>
      match f a with
      | .ok v => (.ok v, [])
      | .error e =>
          if isTransient e then
            ((retryGo f jit base rest).1,
             (base * (a : ℚ) + jit a) :: (retryGo f jit base rest).2)
          else (.error e, [])

/-- retry_with_backoff with its default arguments: five attempts, base
delay two. -/
def retry_with_backoff (f : Nat → Except String α) (jit : Nat → ℚ) :
    Except String α × List ℚ :=
  retryGo f jit 2 (attemptList 5)

/-- One readiness poll of the results route: the file must exist and its
content must contain the word Question at least ten times. -/
def pollReady (c : Option (List Char)) : Bool :=
  match c with
  | none => false
  | some txt => decide (10 ≤ occCount qpat txt)

/-- The waiting loop of the results route, polling the store state (a
function of elapsed time units) with the given remaining iteration
budget; returns whether readiness was observed, the number of sleeps
performed, and the number of polls performed. -/
def gateLoop (store : Nat → Option (List Char)) : Nat → Nat → Bool × Nat × Nat
  | 0, _ => (false, 0, 0)
  | n + 1, t =>
      if pollReady (store t) then (true, 0, 1)
      else
        ((gateLoop store n (t + 1)).1,
         (gateLoop store n (t + 1)).2.1 + 1,
         (gateLoop store n (t + 1)).2.2 + 1)

/-- The completion gate as configured in the results route: fifteen
iterations, starting at time zero. -/
def awaitReady (store : Nat → Option (List Char)) : Bool × Nat × Nat :=
  gateLoop store 15 0

/-- After the wait, the results route reads whatever content exists,
falling back to a fixed message when the file is absent. -/
def resultsFinalText (c : Option (List Char)) : List Char :=
  match c with
  | some txt => txt
  | none => "Transcription incomplete.".toList

/-- The evaluation step of the results route: the Gemini call and its
JSON parse either yield per-question scores, an average and a summary,
or raise; the except branch substitutes score zero and the fixed
error summary.  Returns the pair (final_score, summary). -/
def resultsEvaluate (ev : Except String (List (Nat × ℚ × String) × ℚ × String)) :
    ℚ × String :=
  match ev with
  | .ok x => (x.2.1, x.2.2)
  | .error _ => (0, "Evaluation error.")

/-- Row inserted into the interview_results table. -/
structure Row where
  candidate_id : Nat
  name : String
  email : String
  phone_number : String
  full_transcript : List Char
  final_score : ℚ
  summarised_feedback : String
deriving DecidableEq

/-- The row the results route builds for the warehouse insert, using the
score and summary produced by the evaluation step, degraded or not. -/
def resultsRow (info : Candidate) (ftext : List Char)
    (ev : Except String (List (Nat × ℚ × String) × ℚ × String)) : Row :=
  { candidate_id := info.id
    name := info.name
    email := info.email
    phone_number := info.phone
    full_transcript := ftext
    final_score := (resultsEvaluate ev).1
    summarised_feedback := (resultsEvaluate ev).2 }

/-- Successful insert_rows_json call: the table gains the row. -/
def insertRows (table : List Row) (r : Row) : List Row := table ++ [r]

/-- The duplicate-check query against the results table: candidate ids
of matching rows, limited to one. -/
def queryDup (table : List Row) (cid : Nat) : List Nat :=
  ((table.filter fun r => r.candidate_id == cid).map fun r => r.candidate_id).take 1

/-- The transcription worker body of process_audio_async.  The backend
is modelled as a function from the invocation count to its outcome; the
worker reads the audio, performs exactly one direct backend invocation
(no retry wrapper appears in interview.py), and on success runs the
idempotent append; the enclosing try/except turns any failure into a
log-and-discard, leaving the store unchanged. -/
def process_audio_async_model (backend : Nat → Except String (List Char))
    (audio : Except String (List Char)) (content : List Char)
    (i : Nat) (q : List Char) : List Char :=
  match audio with
  | .error _ => content
  | .ok _ =>
      match backend 1 with
      | .error _ => content
      | .ok t => appendTS content i q t

/-! Toolkit lemmas about the boolean prefix and substring tests. -/

theorem hasPrefixB_iff (pat : List Char) : ∀ l, hasPrefixB pat l = true ↔ ∃ t, pat ++ t = l := by
  induction pat with
  | nil => intro l; simp [hasPrefixB]
  | cons p ps ih =>
    intro l
    cases l with
    | nil => simp [hasPrefixB]
    | cons c cs =>
      simp only [hasPrefixB, Bool.and_eq_true, beq_iff_eq, ih, List.cons_append,
        List.cons.injEq]
      constructor
      · rintro ⟨rfl, t, rfl⟩
        exact ⟨t, rfl, rfl⟩
      · rintro ⟨t, rfl, rfl⟩
        exact ⟨rfl, t, rfl⟩

theorem hasInfixB_iff (pat : List Char) : ∀ l, hasInfixB pat l = true ↔ ∃ s t, s ++ pat ++ t = l := by
  intro l
  induction l with
  | nil =>
    simp only [hasInfixB, hasPrefixB_iff]
    constructor
    · rintro ⟨t, ht⟩
      exact ⟨[], t, ht⟩
    · rintro ⟨s, t, hst⟩
      rcases List.append_eq_nil.mp hst with ⟨h1, rfl⟩
      rcases List.append_eq_nil.mp h1 with ⟨rfl, rfl⟩
      exact ⟨[], rfl⟩
  | cons c cs ih =>
    simp only [hasInfixB, Bool.or_eq_true, hasPrefixB_iff, ih]
    constructor
    · rintro (⟨t, ht⟩ | ⟨s, t, hst⟩)
      · exact ⟨[], t, by simpa using ht⟩
      · exact ⟨c :: s, t, by simp [hst]⟩
    · rintro ⟨s, t, hst⟩
      cases s with
      | nil => exact Or.inl ⟨t, by simpa using hst⟩
      | cons c2 s2 =>
        simp only [List.cons_append, List.cons.injEq] at hst
        exact Or.inr ⟨s2, t, hst.2⟩

theorem prefixB_refl_append (pat r : List Char) : hasPrefixB pat (pat ++ r) = true :=
  (hasPrefixB_iff pat _).mpr ⟨r, rfl⟩

theorem prefixB_mono {pat A : List Char} (B : List Char) (h : hasPrefixB pat A = true) :
    hasPrefixB pat (A ++ B) = true := by
  rcases (hasPrefixB_iff pat A).mp h with ⟨t, rfl⟩
  exact (hasPrefixB_iff _ _).mpr ⟨t ++ B, by simp⟩

theorem infixB_of_prefixB {pat l : List Char} (h : hasPrefixB pat l = true) :
    hasInfixB pat l = true := by
  rcases (hasPrefixB_iff pat l).mp h with ⟨t, rfl⟩
  exact (hasInfixB_iff _ _).mpr ⟨[], t, rfl⟩

theorem infixB_append_right {pat r : List Char} (l : List Char) (h : hasInfixB pat r = true) :
    hasInfixB pat (l ++ r) = true := by
  rcases (hasInfixB_iff _ _).mp h with ⟨s, t, rfl⟩
  exact (hasInfixB_iff _ _).mpr ⟨l ++ s, t, by simp⟩

theorem infixB_append_left {pat A : List Char} (B : List Char) (h : hasInfixB pat A = true) :
    hasInfixB pat (A ++ B) = true := by
  rcases (hasInfixB_iff _ _).mp h with ⟨s, t, rfl⟩
  exact (hasInfixB_iff _ _).mpr ⟨s, t ++ B, by simp⟩

theorem infixB_length {pat l : List Char} (h : hasInfixB pat l = true) :
    pat.length ≤ l.length := by
  rcases (hasInfixB_iff _ _).mp h with ⟨s, t, rfl⟩
  simp
  omega

theorem infixB_sub {X u l : List Char} (h : hasInfixB (X ++ u) l = true) :
    hasInfixB X l = true := by
  rcases (hasInfixB_iff _ _).mp h with ⟨s, t, rfl⟩
  exact (hasInfixB_iff _ _).mpr ⟨s, u ++ t, by simp⟩

theorem prefixB_len_le : ∀ (pat A B : List Char), hasPrefixB pat (A ++ B) = true →
    pat.length ≤ A.length → hasPrefixB pat A = true := by
  intro pat
  induction pat with
  | nil => intro A B _ _; rfl
  | cons p ps ih =>
    intro A B h hlen
    cases A with
    | nil => simp at hlen
    | cons a as =>
      simp only [List.cons_append, hasPrefixB, Bool.and_eq_true] at h ⊢
      refine ⟨h.1, ih as B h.2 ?_⟩
      simp at hlen
      omega

theorem prefixB_rev : ∀ (A pat B : List Char), hasPrefixB pat (A ++ B) = true →
    A.length ≤ pat.length → hasPrefixB A pat = true := by
  intro A
  induction A with
  | nil => intro pat B _ _; rfl
  | cons a as ih =>
    intro pat B h hlen
    cases pat with
    | nil => simp at hlen
    | cons p ps =>
      simp only [List.cons_append, hasPrefixB, Bool.and_eq_true, beq_iff_eq] at h ⊢
      refine ⟨(h.1).symm, ih ps B h.2 ?_⟩
      simp at hlen
      omega

theorem mem_of_prefixB {A pat : List Char} {c : Char} (h : hasPrefixB A pat = true)
    (hc : c ∈ A) : c ∈ pat := by
  rcases (hasPrefixB_iff _ _).mp h with ⟨t, rfl⟩
  exact List.mem_append.mpr (Or.inl hc)

theorem dropAppendLe : ∀ (A B : List Char) (n : Nat), n ≤ A.length →
    (A ++ B).drop n = A.drop n ++ B := by
  intro A
  induction A with
  | nil =>
    intro B n h
    simp [Nat.le_zero] at h
    subst h
    simp
  | cons a as ih =>
    intro B n h
    cases n with
    | zero => simp
    | succ m =>
      simp only [List.cons_append, List.drop_succ_cons]
      exact ih B m (by simp at h; omega)

theorem mem_of_mem_dropN : ∀ (n : Nat) (l : List Char) (c : Char), c ∈ l.drop n → c ∈ l := by
  intro n
  induction n with
  | zero => intro l c h; simpa using h
  | succ m ih =>
    intro l c h
    cases l with
    | nil => simp at h
    | cons x xs =>
      simp only [List.drop_succ_cons] at h
      exact List.mem_cons.mpr (Or.inr (ih xs c h))

theorem infixB_cons {pat l : List Char} {c : Char} (h : hasInfixB pat l = true) :
    hasInfixB pat (c :: l) = true := by
  simp [hasInfixB, h]

theorem infixB_split_sep {pat : List Char} {sep : Char} (hsep : sep ∉ pat) :
    ∀ (xs ys : List Char), hasInfixB pat (xs ++ sep :: ys) = true →
      hasInfixB pat xs = true ∨ hasInfixB pat ys = true := by
  intro xs
  induction xs with
  | nil =>
    intro ys h
    simp only [List.nil_append, hasInfixB, Bool.or_eq_true] at h
    rcases h with h | h
    · cases pat with
      | nil => exact Or.inl rfl
      | cons p ps =>
        simp only [hasPrefixB, Bool.and_eq_true, beq_iff_eq] at h
        exact absurd (List.mem_cons.mpr (Or.inl h.1.symm)) hsep
    · exact Or.inr h
  | cons x xs ih =>
    intro ys h
    simp only [List.cons_append, hasInfixB, Bool.or_eq_true] at h
    rcases h with h | h
    · by_cases hlen : pat.length ≤ (x :: xs).length
      · have hpp : hasPrefixB pat (x :: xs) = true :=
          prefixB_len_le pat (x :: xs) (sep :: ys) h hlen
        exact Or.inl (infixB_of_prefixB hpp)
      · push_neg at hlen
        rcases (hasPrefixB_iff _ _).mp h with ⟨t, ht⟩
        have ht2 : pat ++ t = (x :: xs) ++ sep :: ys := by simpa using ht
        have hd : (pat ++ t).drop (x :: xs).length = pat.drop (x :: xs).length ++ t :=
          dropAppendLe pat t _ (Nat.le_of_lt hlen)
        have hd2 : (pat ++ t).drop (x :: xs).length = sep :: ys := by
          rw [ht2]
          exact List.drop_left (x :: xs) (sep :: ys)
        have h3 : pat.drop (x :: xs).length ++ t = sep :: ys := by rw [← hd, hd2]
        cases hpd : pat.drop (x :: xs).length with
        | nil =>
          exfalso
          have hlen2 : pat.length - (x :: xs).length = 0 := by
            have h4 := congrArg List.length hpd
            simpa [List.length_drop] using h4
          omega
        | cons d ds =>
          rw [hpd] at h3
          simp only [List.cons_append, List.cons.injEq] at h3
          have hmem : sep ∈ pat := by
            refine mem_of_mem_dropN (x :: xs).length pat sep ?_
            rw [hpd]
            exact List.mem_cons.mpr (Or.inl h3.1.symm)
          exact absurd hmem hsep
    · rcases ih ys h with h2 | h2
      · exact Or.inl (infixB_cons h2)
      · exact Or.inr h2

theorem infixB_head_notin {pt Y : List Char} {hc : Char} :
    ∀ (X : List Char), hc ∉ X → hasInfixB (hc :: pt) (X ++ Y) = true →
      hasInfixB (hc :: pt) Y = true := by
  intro X
  induction X with
  | nil => intro _ hh; simpa using hh
  | cons x xs ih =>
    intro hx hh
    simp only [List.cons_append, hasInfixB, Bool.or_eq_true] at hh
    rcases hh with hh | hh
    · simp only [hasPrefixB, Bool.and_eq_true, beq_iff_eq] at hh
      exact absurd (List.mem_cons.mpr (Or.inl hh.1)) hx
    · exact ih (fun hmem => hx (List.mem_cons.mpr (Or.inr hmem))) hh

/-! Lemmas about digit characters and the occurrence count. -/

theorem occ_cons_true {pat l : List Char} {c : Char} (h : hasPrefixB pat (c :: l) = true) :
    occCount pat (c :: l) = 1 + occCount pat l := by
  simp [occCount, h]

theorem occ_cons_false {pat l : List Char} {c : Char} (h : hasPrefixB pat (c :: l) = false) :
    occCount pat (c :: l) = occCount pat l := by
  simp [occCount, h]

theorem occ_zero_of_not_infixB (pat : List Char) : ∀ (l : List Char),
    hasInfixB pat l = false → occCount pat l = 0 := by
  intro l
  induction l with
  | nil => intro _; rfl
  | cons c cs ih =>
    intro h
    simp only [hasInfixB, Bool.or_eq_false_iff] at h
    simp [occCount, h.1, ih h.2]

theorem occ_append_split (pat : List Char) : ∀ (xs ys : List Char),
    (∀ j, j < xs.length → hasPrefixB pat (xs.drop j ++ ys) = true →
      hasPrefixB pat (xs.drop j) = true) →
    occCount pat (xs ++ ys) = occCount pat xs + occCount pat ys := by
  intro xs
  induction xs with
  | nil => intro ys _; simp [occCount]
  | cons x xs ih =>
    intro ys hstr
    have hcond : hasPrefixB pat ((x :: xs) ++ ys) = hasPrefixB pat (x :: xs) := by
      cases hp : hasPrefixB pat (x :: xs) with
      | true => exact prefixB_mono ys hp
      | false =>
        cases hq : hasPrefixB pat ((x :: xs) ++ ys) with
        | false => rfl
        | true =>
          have h0 := hstr 0 (by simp) (by simpa using hq)
          simp only [List.drop_zero] at h0
          rw [h0] at hp
          cases hp
    have hshift : ∀ j, j < xs.length → hasPrefixB pat (xs.drop j ++ ys) = true →
        hasPrefixB pat (xs.drop j) = true := by
      intro j hj hp
      have h1 := hstr (j + 1) (by simp; omega) (by simpa using hp)
      simpa using h1
    have e1 : occCount pat ((x :: xs) ++ ys) =
        (if hasPrefixB pat ((x :: xs) ++ ys) then 1 else 0) + occCount pat (xs ++ ys) := rfl
    have e2 : occCount pat (x :: xs) =
        (if hasPrefixB pat (x :: xs) then 1 else 0) + occCount pat xs := rfl
    rw [e1, hcond, ih ys hshift, e2]
    exact (Nat.add_assoc _ _ _).symm

theorem digitC_mem {d : Nat} (h : d < 10) :
    digitC d ∈ ['0', '1', '2', '3', '4', '5', '6', '7', '8', '9'] := by
  interval_cases d <;> decide

theorem natCharsAux_mem : ∀ (fuel n : Nat) (c : Char), c ∈ natCharsAux fuel n →
    c ∈ ['0', '1', '2', '3', '4', '5', '6', '7', '8', '9'] := by
  intro fuel
  induction fuel with
  | zero => intro n c h; simp [natCharsAux] at h
  | succ f ih =>
    intro n c h
    simp only [natCharsAux] at h
    by_cases hn : n < 10
    · rw [if_pos hn] at h
      simp at h
      rw [h]
      exact digitC_mem hn
    · rw [if_neg hn] at h
      rcases List.mem_append.mp h with h | h
      · exact ih _ _ h
      · simp at h
        rw [h]
        exact digitC_mem (Nat.mod_lt _ (by omega))

theorem natChars_mem {n : Nat} {c : Char} (h : c ∈ natChars n) :
    c ∈ ['0', '1', '2', '3', '4', '5', '6', '7', '8', '9'] :=
  natCharsAux_mem _ _ _ h

theorem natChars_not_Q (n : Nat) : 'Q' ∉ natChars n :=
  fun h => absurd (natChars_mem h) (by decide)

theorem natChars_not_nl (n : Nat) : '\n' ∉ natChars n :=
  fun h => absurd (natChars_mem h) (by decide)

theorem nl_not_mem_qpat : '\n' ∉ qpat := by decide

theorem nl_not_mem_marker (m : Nat) : '\n' ∉ marker m := by
  intro h
  rcases List.mem_append.mp h with h2 | h2
  · rcases List.mem_append.mp h2 with h3 | h3
    · exact absurd h3 (by decide)
    · exact natChars_not_nl m h3
  · exact absurd h2 (by decide)

theorem marker_cons (m : Nat) :
    marker m = 'Q' :: (['u', 'e', 's', 't', 'i', 'o', 'n'] ++ natChars m ++ [':']) := rfl

theorem marker_split (m : Nat) : marker m = qpat ++ (natChars m ++ [':']) := by
  simp [marker, List.append_assoc]

theorem not_Q_X1 (n : Nat) : 'Q' ∉ ['u', 'e', 's', 't', 'i', 'o', 'n'] ++ natChars n ++ [':', ' '] := by
  intro h
  rcases List.mem_append.mp h with h2 | h2
  · rcases List.mem_append.mp h2 with h3 | h3
    · exact absurd h3 (by decide)
    · exact natChars_not_Q n h3
  · exact absurd h2 (by decide)

theorem not_Q_X2 (n : Nat) : 'Q' ∉ ansChars ++ natChars n ++ [':', ' '] := by
  intro h
  rcases List.mem_append.mp h with h2 | h2
  · rcases List.mem_append.mp h2 with h3 | h3
    · exact absurd h3 (by decide)
    · exact natChars_not_Q n h3
  · exact absurd h2 (by decide)

theorem not_Q_digits (n : Nat) : 'Q' ∉ natChars n ++ [':', ' '] := by
  intro h
  rcases List.mem_append.mp h with h2 | h2
  · exact natChars_not_Q n h2
  · exact absurd h2 (by decide)

theorem infixB_cons_elim {pat l : List Char} {c : Char} (h : hasInfixB pat (c :: l) = true) :
    hasPrefixB pat (c :: l) = true ∨ hasInfixB pat l = true := by
  have e : hasInfixB pat (c :: l) = (hasPrefixB pat (c :: l) || hasInfixB pat l) := rfl
  rw [e, Bool.or_eq_true] at h
  exact h

theorem prefixB_cancel : ∀ (X u v : List Char), hasPrefixB (X ++ u) (X ++ v) = hasPrefixB u v := by
  intro X
  induction X with
  | nil => intro u v; rfl
  | cons x xs ih =>
    intro u v
    simp only [List.cons_append, hasPrefixB, beq_self_eq_true, Bool.true_and]
    exact ih u v

theorem occ_qpat_self (r : List Char) : occCount qpat (qpat ++ r) = 1 + occCount qpat r := by
  have h0 : hasPrefixB qpat ('Q' :: 'u' :: 'e' :: 's' :: 't' :: 'i' :: 'o' :: 'n' :: r) = true :=
    prefixB_refl_append qpat r
  show occCount qpat ('Q' :: 'u' :: 'e' :: 's' :: 't' :: 'i' :: 'o' :: 'n' :: r) = 1 + occCount qpat r
  rw [occ_cons_true h0,
      occ_cons_false (show hasPrefixB qpat ('u' :: 'e' :: 's' :: 't' :: 'i' :: 'o' :: 'n' :: r) = false from rfl),
      occ_cons_false (show hasPrefixB qpat ('e' :: 's' :: 't' :: 'i' :: 'o' :: 'n' :: r) = false from rfl),
      occ_cons_false (show hasPrefixB qpat ('s' :: 't' :: 'i' :: 'o' :: 'n' :: r) = false from rfl),
      occ_cons_false (show hasPrefixB qpat ('t' :: 'i' :: 'o' :: 'n' :: r) = false from rfl),
      occ_cons_false (show hasPrefixB qpat ('i' :: 'o' :: 'n' :: r) = false from rfl),
      occ_cons_false (show hasPrefixB qpat ('o' :: 'n' :: r) = false from rfl),
      occ_cons_false (show hasPrefixB qpat ('n' :: r) = false from rfl)]

theorem entryQA_split (n : Nat) (q a : List Char) :
    entryQA n q a = qpat ++ restQA n q a := by
  simp [entryQA, restQA, marker, List.append_assoc]

theorem restQA_no_qpat (n : Nat) {q a : List Char} (hq : hasInfixB qpat q = false)
    (ha : hasInfixB qpat a = false) : hasInfixB qpat (restQA n q a) = false := by
  cases hb : hasInfixB qpat (restQA n q a) with
  | false => rfl
  | true =>
    exfalso
    have e : restQA n q a = (natChars n ++ [':', ' ']) ++ (q ++ '\n' :: answerTail n a) := by
      simp [restQA, List.append_assoc]
    rw [e] at hb
    have h2 : hasInfixB qpat (q ++ '\n' :: answerTail n a) = true :=
      infixB_head_notin _ (not_Q_digits n) hb
    rcases infixB_split_sep nl_not_mem_qpat q (answerTail n a) h2 with h3 | h3
    · rw [hq] at h3
      cases h3
    · have e2 : answerTail n a = (ansChars ++ natChars n ++ [':', ' ']) ++ (a ++ '\n' :: ['\n']) := by
        simp [answerTail, List.append_assoc]
      rw [e2] at h3
      have h4 : hasInfixB qpat (a ++ '\n' :: ['\n']) = true :=
        infixB_head_notin _ (not_Q_X2 n) h3
      rcases infixB_split_sep nl_not_mem_qpat a ['\n'] h4 with h5 | h5
      · rw [ha] at h5
        cases h5
      · have h6 := infixB_length h5
        simp [qpat] at h6

theorem occ_entry (n : Nat) {q a : List Char} (hq : hasInfixB qpat q = false)
    (ha : hasInfixB qpat a = false) : occCount qpat (entryQA n q a) = 1 := by
  rw [entryQA_split, occ_qpat_self, occ_zero_of_not_infixB _ _ (restQA_no_qpat n hq ha)]

theorem entryQA_init (n : Nat) (q a : List Char) :
    entryQA n q a = entryInit n q a ++ ['\n'] := by
  simp [entryQA, entryInit, answerTail, List.append_assoc]

theorem occ_append_newline {A : List Char} (rest : List Char)
    (hA : ∃ A0, A = A0 ++ ['\n']) :
    occCount qpat (A ++ rest) = occCount qpat A + occCount qpat rest := by
  rcases hA with ⟨A0, rfl⟩
  apply occ_append_split
  intro j hj hp
  by_cases hfit : qpat.length ≤ ((A0 ++ ['\n']).drop j).length
  · exact prefixB_len_le qpat _ rest hp hfit
  · push_neg at hfit
    exfalso
    have hrev : hasPrefixB ((A0 ++ ['\n']).drop j) qpat = true :=
      prefixB_rev _ qpat rest hp (Nat.le_of_lt hfit)
    have hnl : '\n' ∈ (A0 ++ ['\n']).drop j := by
      have hj2 : j ≤ A0.length := by
        simp [List.length_append] at hj
        omega
      rw [dropAppendLe A0 ['\n'] j hj2]
      exact List.mem_append.mpr (Or.inr (by simp))
    exact absurd (mem_of_prefixB hrev hnl) nl_not_mem_qpat

/-! Lemmas about concatenated stored blocks. -/

theorem concatRecs_append : ∀ (A B : List AppendRec),
    concatRecs (A ++ B) = concatRecs A ++ concatRecs B := by
  intro A
  induction A with
  | nil => intro B; simp [concatRecs]
  | cons r L ih => intro B; simp [concatRecs, ih, List.append_assoc]

theorem occ_concat : ∀ (l : List AppendRec), (∀ r ∈ l, CleanRec r) →
    occCount qpat (concatRecs l) = l.length := by
  intro l
  induction l with
  | nil => intro _; rfl
  | cons r L ih =>
    intro hc
    have hr := hc r (List.mem_cons_self r L)
    show occCount qpat (entryQA (r.idx + 1) r.ques r.ansT ++ concatRecs L) = L.length + 1
    rw [occ_append_newline _ ⟨entryInit (r.idx + 1) r.ques r.ansT, entryQA_init _ _ _⟩,
        occ_entry _ hr.1 hr.2, ih (fun x hx => hc x (List.mem_cons.mpr (Or.inr hx)))]
    omega

theorem digitsColon : ∀ (m n : Nat), 1 ≤ m → m ≤ 10 → 1 ≤ n → n ≤ 10 → ∀ (q : List Char),
    hasPrefixB (natChars m ++ [':']) (natChars n ++ [':', ' '] ++ q) = true → m = n := by
  intro m n hm1 hm hn1 hn q h
  interval_cases m <;> interval_cases n <;> first | rfl | exact Bool.noConfusion h

theorem marker_in_entry {m n : Nat} (hm1 : 1 ≤ m) (hm : m ≤ 10) (hn1 : 1 ≤ n) (hn : n ≤ 10)
    {q a : List Char} (hq : hasInfixB qpat q = false) (ha : hasInfixB qpat a = false)
    (h : hasInfixB (marker m) (entryQA n q a) = true) : m = n := by
  have e : entryQA n q a = (marker n ++ [' '] ++ q) ++ '\n' :: answerTail n a := by
    simp [entryQA, List.append_assoc]
  rw [e] at h
  rcases infixB_split_sep (nl_not_mem_marker m) _ _ h with h1 | h1
  · have e2 : marker n ++ [' '] ++ q =
        'Q' :: (['u', 'e', 's', 't', 'i', 'o', 'n'] ++ natChars n ++ [':'] ++ [' '] ++ q) := rfl
    rw [e2] at h1
    rcases infixB_cons_elim h1 with h2 | h2
    · have e3 : ('Q' :: (['u', 'e', 's', 't', 'i', 'o', 'n'] ++ natChars n ++ [':'] ++ [' '] ++ q)) =
          qpat ++ (natChars n ++ [':', ' '] ++ q) := by
        simp [qpat, List.append_assoc]
      rw [e3, marker_split m] at h2
      rw [prefixB_cancel] at h2
      exact digitsColon m n hm1 hm hn1 hn q h2
    · have e5 : (['u', 'e', 's', 't', 'i', 'o', 'n'] ++ natChars n ++ [':'] ++ [' '] ++ q) =
          (['u', 'e', 's', 't', 'i', 'o', 'n'] ++ natChars n ++ [':', ' ']) ++ q := by
        simp [List.append_assoc]
      rw [e5, marker_cons m] at h2
      have h7 := infixB_head_notin _ (not_Q_X1 n) h2
      rw [← marker_cons m, marker_split m] at h7
      have h8 := infixB_sub h7
      rw [hq] at h8
      cases h8
  · have e6 : answerTail n a = (ansChars ++ natChars n ++ [':', ' ']) ++ (a ++ '\n' :: ['\n']) := by
      simp [answerTail, List.append_assoc]
    rw [e6, marker_cons m] at h1
    have h7 := infixB_head_notin _ (not_Q_X2 n) h1
    rw [← marker_cons m] at h7
    rcases infixB_split_sep (nl_not_mem_marker m) a ['\n'] h7 with h9 | h9
    · rw [marker_split m] at h9
      have h10 := infixB_sub h9
      rw [ha] at h10
      cases h10
    · have h10 := infixB_length h9
      simp [marker, qpat, List.length_append] at h10

theorem marker_in_concat {m : Nat} (hm1 : 1 ≤ m) (hm : m ≤ 10) :
    ∀ (l : List AppendRec), (∀ r ∈ l, r.idx < 10) → (∀ r ∈ l, CleanRec r) →
      hasInfixB (marker m) (concatRecs l) = true → ∃ r ∈ l, r.idx + 1 = m := by
  intro l
  induction l with
  | nil =>
    intro _ _ h
    rw [marker_cons m] at h
    exact absurd h (by simp [hasInfixB, hasPrefixB])
  | cons r L ih =>
    intro hidx hc h
    have e : concatRecs (r :: L) = entryInit (r.idx + 1) r.ques r.ansT ++ '\n' :: concatRecs L := by
      show entryQA (r.idx + 1) r.ques r.ansT ++ concatRecs L = _
      rw [entryQA_init]
      simp [List.append_assoc]
    rw [e] at h
    rcases infixB_split_sep (nl_not_mem_marker m) _ _ h with h1 | h1
    · have h2 : hasInfixB (marker m) (entryQA (r.idx + 1) r.ques r.ansT) = true := by
        rw [entryQA_init]
        exact infixB_append_left _ h1
      have hr := hc r (List.mem_cons_self r L)
      have hi := hidx r (List.mem_cons_self r L)
      have := marker_in_entry hm1 hm (by omega) (by omega) hr.1 hr.2 h2
      exact ⟨r, List.mem_cons_self r L, this.symm⟩
    · rcases ih (fun x hx => hidx x (List.mem_cons.mpr (Or.inr hx)))
        (fun x hx => hc x (List.mem_cons.mpr (Or.inr hx))) h1 with ⟨x, hx, hxm⟩
      exact ⟨x, List.mem_cons.mpr (Or.inr hx), hxm⟩

theorem applyAppends_concat : ∀ (l done : List AppendRec),
    ((done ++ l).map AppendRec.idx).Nodup →
    (∀ r ∈ done ++ l, r.idx < 10) → (∀ r ∈ done ++ l, CleanRec r) →
    applyAppends (concatRecs done) l = concatRecs (done ++ l) := by
  intro l
  induction l with
  | nil => intro done _ _ _; simp [applyAppends]
  | cons r L ih =>
    intro done hnd hidx hc
    show applyAppends (appendTS (concatRecs done) r.idx r.ques r.ansT) L = _
    have hskip : hasInfixB (marker (r.idx + 1)) (concatRecs done) = false := by
      cases hb : hasInfixB (marker (r.idx + 1)) (concatRecs done) with
      | false => rfl
      | true =>
        exfalso
        have hrm : r ∈ done ++ r :: L := List.mem_append.mpr (Or.inr (List.mem_cons_self r L))
        have hi : r.idx < 10 := hidx r hrm
        rcases marker_in_concat (by omega) (by omega) done
          (fun x hx => hidx x (List.mem_append.mpr (Or.inl hx)))
          (fun x hx => hc x (List.mem_append.mpr (Or.inl hx))) hb with ⟨x, hxd, hxe⟩
        have hxidx : x.idx = r.idx := by omega
        rw [List.map_append] at hnd
        rcases List.nodup_append.mp hnd with ⟨_, _, hdisj⟩
        exact hdisj (List.mem_map.mpr ⟨x, hxd, hxidx⟩) (by simp)
    have happ : appendTS (concatRecs done) r.idx r.ques r.ansT = concatRecs (done ++ [r]) := by
      simp [appendTS, hskip, concatRecs_append, concatRecs]
    rw [happ]
    have hre : (done ++ [r]) ++ L = done ++ r :: L := by simp
    rw [ih (done ++ [r]) (by rw [hre]; exact hnd) (by rw [hre]; exact hidx)
      (by rw [hre]; exact hc), hre]

/-! Claim theorems. -/

theorem submit_answer_some {s : Session} {p : Payload}
    {o : Session × Option (Nat × Nat × List Char)} (h : submit_answer s p = some o) :
    s.index < s.questions.length ∧ o.1.index = s.index + 1 ∧ o.1.questions = s.questions := by
  by_cases hlt : s.index < s.questions.length
  · refine ⟨hlt, ?_⟩
    cases p with
    | audio hnd =>
      simp only [submit_answer, dif_pos hlt, Option.some.injEq] at h
      rw [← h]
      exact ⟨rfl, rfl⟩
    | text a =>
      simp only [submit_answer, dif_pos hlt, Option.some.injEq] at h
      rw [← h]
      exact ⟨rfl, rfl⟩
  · cases p <;> simp [submit_answer, hlt] at h

/-- Claim C1: on every session, each successful submit_answer call, audio
or text, advances the index by exactly one and keeps it at most the
number of questions; over any sequence of calls the index is
monotonically non-decreasing and stays within the bound. -/
theorem c1_monotonic_advance :
    (∀ (s : Session) (p : Payload) (o : Session × Option (Nat × Nat × List Char)),
        submit_answer s p = some o →
        o.1.index = s.index + 1 ∧ o.1.index ≤ o.1.questions.length ∧
          o.1.questions = s.questions) ∧
    (∀ (ps : List Payload) (s : Session), s.index ≤ (runSubmits s ps).index) ∧
    (∀ (ps : List Payload) (s : Session), s.index ≤ s.questions.length →
        (runSubmits s ps).index ≤ (runSubmits s ps).questions.length) := by
  refine ⟨?_, ?_, ?_⟩
  · intro s p o h
    have hs := submit_answer_some h
    refine ⟨hs.2.1, ?_, hs.2.2⟩
    rw [hs.2.1, hs.2.2]
    omega
  · intro ps
    induction ps with
    | nil => intro s; exact Nat.le_refl _
    | cons p ps ih =>
      intro s
      show s.index ≤ (runSubmits (match submit_answer s p with
        | some o => o.1 | none => s) ps).index
      cases h : submit_answer s p with
      | none => exact ih s
      | some o =>
        have hs := submit_answer_some h
        have h2 : s.index ≤ o.1.index := by omega
        exact Nat.le_trans h2 (ih o.1)
  · intro ps
    induction ps with
    | nil => intro s hle; exact hle
    | cons p ps ih =>
      intro s hle
      show (runSubmits (match submit_answer s p with
        | some o => o.1 | none => s) ps).index ≤
        (runSubmits (match submit_answer s p with
        | some o => o.1 | none => s) ps).questions.length
      cases h : submit_answer s p with
      | none => exact ih s hle
      | some o =>
        have hs := submit_answer_some h
        refine ih o.1 ?_
        rw [hs.2.1, hs.2.2]
        omega

/-- Witness for C1 at a concrete one-question session and a text answer. -/
theorem c1_witness :
    submit_answer ⟨⟨101, "n", "e", "p", "r"⟩, [['q']], 0, []⟩ (Payload.text ['a']) =
      some (⟨⟨101, "n", "e", "p", "r"⟩, [['q']], 1, [(['q'], ['a'])]⟩, none) ∧
    (⟨⟨101, "n", "e", "p", "r"⟩, [['q']], 1, [(['q'], ['a'])]⟩ : Session).index = 0 + 1 := by
  have h := c1_monotonic_advance.1 ⟨⟨101, "n", "e", "p", "r"⟩, [['q']], 0, []⟩
    (Payload.text ['a']) (⟨⟨101, "n", "e", "p", "r"⟩, [['q']], 1, [(['q'], ['a'])]⟩, none)
    (by decide)
  exact ⟨by decide, h.1⟩

/-- Claim C2: appending the same index twice to the transcript file
stores the block exactly once; the second write is skipped as a
duplicate and is not an error.  The first conjunct needs no assumption;
the second shows a fresh append extends the file by exactly one block. -/
theorem c2_idempotent_append : ∀ (content : List Char) (i : Nat) (q a : List Char),
    appendTS (appendTS content i q a) i q a = appendTS content i q a ∧
    (hasInfixB (marker (i + 1)) content = false →
      appendTS content i q a = content ++ entryQA (i + 1) q a) := by
  intro content i q a
  constructor
  · cases hb : hasInfixB (marker (i + 1)) content with
    | true => simp [appendTS, hb]
    | false =>
      have h1 : appendTS content i q a = content ++ entryQA (i + 1) q a := by
        simp [appendTS, hb]
      rw [h1]
      have h2 : hasInfixB (marker (i + 1)) (content ++ entryQA (i + 1) q a) = true := by
        apply infixB_append_right
        apply infixB_of_prefixB
        have e : entryQA (i + 1) q a =
            marker (i + 1) ++ ([' '] ++ q ++ ['\n'] ++ answerTail (i + 1) a) := by
          simp [entryQA, List.append_assoc]
        rw [e]
        exact prefixB_refl_append _ _
      simp [appendTS, h2]
  · intro hb
    simp [appendTS, hb]

/-- Witness for C2 at an empty file, index zero and one-letter texts. -/
theorem c2_witness :
    appendTS (appendTS [] 0 ['q'] ['a']) 0 ['q'] ['a'] = appendTS [] 0 ['q'] ['a'] ∧
    appendTS [] 0 ['q'] ['a'] = [] ++ entryQA 1 ['q'] ['a'] := by
  have h := c2_idempotent_append [] 0 ['q'] ['a']
  exact ⟨h.1, h.2 (by decide)⟩

/-- Counterexample for C4 as stated: on the degraded path the summary
is the string Evaluation error followed by a period, which differs from
the string Evaluation error quoted by the claim. -/
theorem c4_counterexample :
    (resultsEvaluate (.error "boom")).2 = "Evaluation error." ∧
    "Evaluation error." ≠ "Evaluation error" :=
  ⟨rfl, by decide⟩

/-- Claim C4 (amended): when the scoring backend or its JSON parse
fails, the evaluation step of the results route returns score zero and
the non-empty summary Evaluation error with a trailing period, and
never raises: the embedding is a total function on the failure case. -/
theorem c4_degraded_eval : ∀ (e : String),
    resultsEvaluate (.error e) = (0, "Evaluation error.") ∧
    "Evaluation error." ≠ "" :=
  fun _ => ⟨rfl, by decide⟩

/-- Claim C5: the completion gate performs at most fifteen polls and
fifteen sleeps; on a store that never reaches readiness it reports
failure after exactly fifteen sleeps and fifteen polls, and the caller
then reads whatever incomplete content the store holds. -/
theorem c5_bounded_wait : ∀ (store : Nat → Option (List Char)),
    ((awaitReady store).2.1 ≤ 15 ∧ (awaitReady store).2.2 ≤ 15) ∧
    ((∀ t, pollReady (store t) = false) →
      awaitReady store = (false, 15, 15) ∧
      (∀ remainTx, store 15 = some remainTx → resultsFinalText (store 15) = remainTx)) := by
  intro store
  constructor
  · have hb : ∀ n t, (gateLoop store n t).2.1 ≤ n ∧ (gateLoop store n t).2.2 ≤ n := by
      intro n
      induction n with
      | zero => intro t; simp [gateLoop]
      | succ m ih =>
        intro t
        cases hp : pollReady (store t) with
        | true => simp [gateLoop, hp]
        | false =>
          have h2 := ih (t + 1)
          simp [gateLoop, hp]
          omega
    exact ⟨(hb 15 0).1, (hb 15 0).2⟩
  · intro hnever
    constructor
    · have hg : ∀ n t, gateLoop store n t = (false, n, n) := by
        intro n
        induction n with
        | zero => intro t; rfl
        | succ m ih => intro t; simp [gateLoop, hnever t, ih (t + 1)]
      exact hg 15 0
    · intro p hp
      simp [resultsFinalText, hp]

/-- Witness for C5 at a store that never creates the file. -/
theorem c5_witness : awaitReady (fun _ => none) = (false, 15, 15) :=
  ((c5_bounded_wait (fun _ => none)).2 (fun _ => rfl)).1

/-- Counterexample for C6 as stated: one single append, whose answer
text itself contains the word Question, yields a store whose readiness
count is two although only one distinct index was appended, so the
count does depend on the content of the answer texts. -/
theorem c6_counterexample :
    occCount qpat (applyAppends [] [⟨0, ['q'], "Question".toList⟩]) = 2 ∧
    ([(⟨0, ['q'], "Question".toList⟩ : AppendRec)].length = 1) ∧ (2 : Nat) ≠ 1 :=
  ⟨by decide, rfl, by decide⟩

/-- Claim C6 (amended): for appends of pairwise distinct indices below
ten whose question and answer texts do not contain the word Question,
the readiness count equals the number of appends in any order, and the
readiness flag is set exactly when at least ten were appended. -/
theorem c6_out_of_order_readiness : ∀ (l : List AppendRec),
    (∀ r ∈ l, r.idx < 10) → (l.map AppendRec.idx).Nodup → (∀ r ∈ l, CleanRec r) →
    occCount qpat (applyAppends [] l) = l.length ∧
    (pollReady (some (applyAppends [] l)) = true ↔ 10 ≤ l.length) ∧
    (∀ l2, l.Perm l2 →
      occCount qpat (applyAppends [] l2) = occCount qpat (applyAppends [] l)) := by
  have key : ∀ (l2 : List AppendRec), (∀ r ∈ l2, r.idx < 10) →
      (l2.map AppendRec.idx).Nodup → (∀ r ∈ l2, CleanRec r) →
      occCount qpat (applyAppends [] l2) = l2.length := by
    intro l2 h1 h2 h3
    have e := applyAppends_concat l2 [] (by simpa using h2) (by simpa using h1)
      (by simpa using h3)
    have e2 : applyAppends [] l2 = concatRecs l2 := by simpa using e
    rw [e2]
    exact occ_concat l2 h3
  intro l hidx hnd hc
  refine ⟨key l hidx hnd hc, ?_, ?_⟩
  · rw [show pollReady (some (applyAppends [] l)) =
        decide (10 ≤ occCount qpat (applyAppends [] l)) from rfl,
      key l hidx hnd hc]
    simp
  · intro l2 hperm
    have h1 : ∀ r ∈ l2, r.idx < 10 := fun r hr => hidx r (hperm.mem_iff.mpr hr)
    have h2 : (l2.map AppendRec.idx).Nodup := (hperm.map AppendRec.idx).nodup_iff.mp hnd
    have h3 : ∀ r ∈ l2, CleanRec r := fun r hr => hc r (hperm.mem_iff.mpr hr)
    rw [key l2 h1 h2 h3, key l hidx hnd hc, hperm.length_eq]

/-- Witness for C6 at two clean appends arriving out of order. -/
theorem c6_witness :
    occCount qpat (applyAppends [] [⟨1, ['c'], ['d']⟩, ⟨0, ['a'], ['b']⟩]) = 2 :=
  (c6_out_of_order_readiness [⟨1, ['c'], ['d']⟩, ⟨0, ['a'], ['b']⟩]
    (by decide) (by decide) (by decide)).1

/-! Retry executor lemmas. -/

theorem mem_attemptList {x m : Nat} : x ∈ attemptList m ↔ 1 ≤ x ∧ x ≤ m := by
  simp only [attemptList, List.mem_map, List.mem_range]
  constructor
  · rintro ⟨y, hy, rfl⟩
    omega
  · intro h
    exact ⟨x - 1, by omega, by omega⟩

theorem retryGo_congr {α : Type} (f g : Nat → Except String α) (jit : Nat → ℚ) (base : ℚ) :
    ∀ (as : List Nat), (∀ x ∈ as, f x = g x) →
      retryGo f jit base as = retryGo g jit base as := by
  intro as
  induction as with
  | nil => intro _; rfl
  | cons a rest ih =>
    intro h
    have ha := h a (List.mem_cons_self a rest)
    have hr := ih (fun x hx => h x (List.mem_cons.mpr (Or.inr hx)))
    simp only [retryGo, ha, hr]

theorem retryGo_exhaust {α : Type} (f : Nat → Except String α) (jit : Nat → ℚ) (base : ℚ) :
    ∀ (as : List Nat), (∀ x ∈ as, ∃ e, f x = .error e ∧ isTransient e = true) →
      retryGo f jit base as =
        (.error exhaustMsg, as.map fun (x : Nat) => base * (x : ℚ) + jit x) := by
  intro as
  induction as with
  | nil => intro _; rfl
  | cons a rest ih =>
    intro h
    rcases h a (List.mem_cons_self a rest) with ⟨e, he, ht⟩
    have hr := ih (fun x hx => h x (List.mem_cons.mpr (Or.inr hx)))
    simp only [retryGo, he, ht, if_true, hr, List.map_cons]

theorem retryGo_fatal {α : Type} (f : Nat → Except String α) (jit : Nat → ℚ) (base : ℚ)
    {e : String} (he : isTransient e = false) :
    ∀ (done : List Nat) (rest : List Nat) (k : Nat),
      (∀ x ∈ done, ∃ ex, f x = .error ex ∧ isTransient ex = true) →
      f k = .error e →
      retryGo f jit base (done ++ k :: rest) =
        (.error e, done.map fun (x : Nat) => base * (x : ℚ) + jit x) := by
  intro done
  induction done with
  | nil =>
    intro rest k _ hk
    simp [retryGo, hk, he]
  | cons a d ih =>
    intro rest k h hk
    rcases h a (List.mem_cons_self a d) with ⟨ex, hex, hxt⟩
    have hrec := ih rest k (fun x hx => h x (List.mem_cons.mpr (Or.inr hx))) hk
    simp only [List.cons_append, retryGo, hex, hxt, if_true, List.map_cons,
      List.append_eq, hrec]

theorem retryGo_success {α : Type} (f : Nat → Except String α) (jit : Nat → ℚ) (base : ℚ)
    {v : α} :
    ∀ (done : List Nat) (rest : List Nat) (k : Nat),
      (∀ x ∈ done, ∃ ex, f x = .error ex ∧ isTransient ex = true) →
      f k = .ok v →
      retryGo f jit base (done ++ k :: rest) =
        (.ok v, done.map fun (x : Nat) => base * (x : ℚ) + jit x) := by
  intro done
  induction done with
  | nil =>
    intro rest k _ hk
    simp [retryGo, hk]
  | cons a d ih =>
    intro rest k h hk
    rcases h a (List.mem_cons_self a d) with ⟨ex, hex, hxt⟩
    have hrec := ih rest k (fun x hx => h x (List.mem_cons.mpr (Or.inr hx))) hk
    simp only [List.cons_append, retryGo, hex, hxt, if_true, List.map_cons,
      List.append_eq, hrec]

theorem retryGo_sleeps {α : Type} (f : Nat → Except String α) (jit : Nat → ℚ) (base : ℚ) :
    ∀ (as : List Nat), ∀ d ∈ (retryGo f jit base as).2,
      ∃ x ∈ as, d = base * (x : ℚ) + jit x := by
  intro as
  induction as with
  | nil => intro d hd; simp [retryGo] at hd
  | cons a rest ih =>
    intro d hd
    cases hfa : f a with
    | ok v =>
      rw [show retryGo f jit base (a :: rest) = (.ok v, []) from by
        simp only [retryGo, hfa]] at hd
      simp at hd
    | error e =>
      cases ht : isTransient e with
      | true =>
        rw [show retryGo f jit base (a :: rest) =
            ((retryGo f jit base rest).1,
             (base * (a : ℚ) + jit a) :: (retryGo f jit base rest).2) from by
          simp only [retryGo, hfa, ht, if_true]] at hd
        rcases List.mem_cons.mp hd with h1 | h1
        · exact ⟨a, List.mem_cons_self a rest, h1⟩
        · rcases ih d h1 with ⟨x, hx, he2⟩
          exact ⟨x, List.mem_cons.mpr (Or.inr hx), he2⟩
      | false =>
        rw [show retryGo f jit base (a :: rest) = (.error e, []) from by
          simp [retryGo, hfa, ht]] at hd
        simp at hd

theorem exhaustMsg_not_transient : isTransient exhaustMsg = false := by decide

theorem retry_fatal_at {α : Type} (f : Nat → Except String α) (jit : Nat → ℚ) {e : String}
    (he : isTransient e = false) (k : Nat) (hk1 : 1 ≤ k) (hk : k ≤ 5)
    (hdone : ∀ x, 1 ≤ x → x < k → ∃ ex, f x = .error ex ∧ isTransient ex = true)
    (hke : f k = .error e) :
    retry_with_backoff f jit =
      (.error e, (attemptList (k - 1)).map fun (x : Nat) => 2 * (x : ℚ) + jit x) := by
  interval_cases k
  · exact retryGo_fatal f jit 2 he [] [2, 3, 4, 5] 1 (by intro x hx; simp at hx) hke
  · refine retryGo_fatal f jit 2 he [1] [3, 4, 5] 2 ?_ hke
    intro x hx
    simp at hx
    subst hx
    exact hdone 1 (by omega) (by omega)
  · refine retryGo_fatal f jit 2 he [1, 2] [4, 5] 3 ?_ hke
    intro x hx
    simp at hx
    rcases hx with rfl | rfl <;> exact hdone _ (by omega) (by omega)
  · refine retryGo_fatal f jit 2 he [1, 2, 3] [5] 4 ?_ hke
    intro x hx
    simp at hx
    rcases hx with rfl | rfl | rfl <;> exact hdone _ (by omega) (by omega)
  · refine retryGo_fatal f jit 2 he [1, 2, 3, 4] [] 5 ?_ hke
    intro x hx
    simp at hx
    rcases hx with rfl | rfl | rfl | rfl <;> exact hdone _ (by omega) (by omega)

/-- Claim C3: the backoff executor consults the operation on at most the
five attempt numbers one to five; a first-attempt success returns at
once with no sleep; a non-transient failure, after any run of transient
ones, propagates immediately with one sleep per preceding transient
failure; five transient failures exhaust the attempts and surface the
distinct max-retries message, which differs from every underlying
transient message; and every sleep equals base times attempt number
plus the jitter drawn for that attempt, hence lies in the expected
interval when the jitter is drawn from the unit interval. -/
theorem c3_backoff_executor : ∀ (α : Type) (f : Nat → Except String α) (jit : Nat → ℚ),
    (∀ g : Nat → Except String α, (∀ x, 1 ≤ x → x ≤ 5 → f x = g x) →
        retry_with_backoff f jit = retry_with_backoff g jit) ∧
    (∀ v, f 1 = .ok v → retry_with_backoff f jit = (.ok v, [])) ∧
    (∀ k e, 1 ≤ k → k ≤ 5 →
      (∀ x, 1 ≤ x → x < k → ∃ ex, f x = .error ex ∧ isTransient ex = true) →
      f k = .error e → isTransient e = false →
      retry_with_backoff f jit =
        (.error e, (attemptList (k - 1)).map fun (x : Nat) => 2 * (x : ℚ) + jit x)) ∧
    ((∀ x, 1 ≤ x → x ≤ 5 → ∃ e, f x = .error e ∧ isTransient e = true) →
      retry_with_backoff f jit =
        (.error exhaustMsg, (attemptList 5).map fun (x : Nat) => 2 * (x : ℚ) + jit x) ∧
      (∀ x e, 1 ≤ x → x ≤ 5 → f x = .error e → exhaustMsg ≠ e)) ∧
    ((∀ n, 0 ≤ jit n ∧ jit n < 1) → ∀ d ∈ (retry_with_backoff f jit).2,
      ∃ x : Nat, 1 ≤ x ∧ x ≤ 5 ∧ d = 2 * (x : ℚ) + jit x ∧
        2 * (x : ℚ) ≤ d ∧ d < 2 * (x : ℚ) + 1) := by
  intro α f jit
  refine ⟨?_, ?_, ?_, ?_, ?_⟩
  · intro g hg
    exact retryGo_congr f g jit 2 (attemptList 5)
      (fun x hx => hg x (mem_attemptList.mp hx).1 (mem_attemptList.mp hx).2)
  · intro v hv
    exact retryGo_success f jit 2 [] [2, 3, 4, 5] 1 (by intro x hx; simp at hx) hv
  · intro k e hk1 hk hdone hke he
    exact retry_fatal_at f jit he k hk1 hk hdone hke
  · intro hall
    constructor
    · exact retryGo_exhaust f jit 2 (attemptList 5)
        (fun x hx => hall x (mem_attemptList.mp hx).1 (mem_attemptList.mp hx).2)
    · intro x e hx1 hx5 hxe heq
      rcases hall x hx1 hx5 with ⟨e2, he2, ht2⟩
      rw [hxe] at he2
      have hee : e = e2 := by
        injection he2
      rw [← hee, ← heq] at ht2
      rw [exhaustMsg_not_transient] at ht2
      cases ht2
  · intro hjit d hd
    rcases retryGo_sleeps f jit 2 (attemptList 5) d hd with ⟨x, hx, hde⟩
    rcases mem_attemptList.mp hx with ⟨h1, h5⟩
    refine ⟨x, h1, h5, hde, ?_, ?_⟩
    · rw [hde]
      have := (hjit x).1
      linarith
    · rw [hde]
      have := (hjit x).2
      linarith

/-- Witness for C3: an operation that always fails with a rate-limit
message exhausts all five attempts and surfaces the distinct message. -/
theorem c3_witness :
    retry_with_backoff (fun _ => (.error "rate limit exceeded" : Except String Nat))
      (fun _ => (1 : ℚ) / 2) =
      (.error exhaustMsg, (attemptList 5).map fun (x : Nat) => 2 * (x : ℚ) + (1 : ℚ) / 2) ∧
    exhaustMsg ≠ "rate limit exceeded" := by
  have h := (c3_backoff_executor Nat (fun _ => .error "rate limit exceeded")
    (fun _ => (1 : ℚ) / 2)).2.2.2.1
    (fun x _ _ => ⟨"rate limit exceeded", rfl, by decide⟩)
  exact ⟨h.1, h.2 1 "rate limit exceeded" (by decide) (by decide) rfl⟩

/-- Counterexample for C7 as stated: a generator outcome of seven
strings starts a session holding seven questions, so a result other
than ten strings does not make the session fail to start. -/
theorem c7_counterexample :
    login false (some ⟨101, "n", "e", "p", "r"⟩)
      (.ok [['a'], ['b'], ['c'], ['d'], ['e'], ['f'], ['g']]) =
      .ok (.started ⟨⟨101, "n", "e", "p", "r"⟩,
        [['a'], ['b'], ['c'], ['d'], ['e'], ['f'], ['g']], 0, []⟩) ∧
    [['a'], ['b'], ['c'], ['d'], ['e'], ['f'], ['g']].length ≠ 10 :=
  ⟨rfl, by decide⟩

/-- Claim C7 (amended): questions are generated once at session start
and stored unvalidated: a successful generation freezes exactly the
returned list into the fresh session, a generation or parse failure
propagates and no session is created, and no submit_answer call ever
changes the stored questions. -/
theorem c7_generation : ∀ (c : Candidate) (qs : List (List Char)) (e : String),
    login false (some c) (.ok qs) = .ok (.started ⟨c, qs, 0, []⟩) ∧
    login false (some c) (.error e) = .error e ∧
    (∀ (s : Session) (p : Payload) (o : Session × Option (Nat × Nat × List Char)),
      submit_answer s p = some o → o.1.questions = s.questions) := by
  intro c qs e
  refine ⟨rfl, rfl, ?_⟩
  intro s p o h
  exact (submit_answer_some h).2.2

/-- Witness for C7 at a concrete candidate, question list and submit. -/
theorem c7_witness :
    login false (some ⟨101, "n", "e", "p", "r"⟩) (.ok [['q']]) =
      .ok (.started ⟨⟨101, "n", "e", "p", "r"⟩, [['q']], 0, []⟩) ∧
    (⟨⟨101, "n", "e", "p", "r"⟩, [['q']], 1, [(['q'], ['a'])]⟩ : Session).questions =
      (⟨⟨101, "n", "e", "p", "r"⟩, [['q']], 0, []⟩ : Session).questions := by
  have h := c7_generation ⟨101, "n", "e", "p", "r"⟩ [['q']] "x"
  exact ⟨h.1, h.2.2 ⟨⟨101, "n", "e", "p", "r"⟩, [['q']], 0, []⟩ (Payload.text ['a'])
    (⟨⟨101, "n", "e", "p", "r"⟩, [['q']], 1, [(['q'], ['a'])]⟩, none) (by decide)⟩

/-- Counterexample for C8 as stated: on a backend whose first invocation
fails with a transient rate-limit message and whose second invocation
succeeds, the worker leaves the store unchanged and discards the task,
whereas the backoff executor run on the same backend succeeds; had the
worker wrapped the backend in the executor, the answer would have been
appended. -/
theorem c8_counterexample :
    process_audio_async_model
      (fun n => if n = 1 then .error "rate limit exceeded" else .ok ['h', 'i'])
      (.ok ['b']) [] 0 ['q'] = [] ∧
    (retry_with_backoff
      (fun n => if n = 1 then .error "rate limit exceeded" else .ok ['h', 'i'])
      (fun _ => 0)).1 = .ok ['h', 'i'] ∧
    isTransient "rate limit exceeded" = true ∧
    appendTS [] 0 ['q'] ['h', 'i'] ≠ [] := by
  refine ⟨rfl, rfl, by decide, by decide⟩

/-- Claim C8 (amended): the worker reads the audio and invokes the
transcription backend exactly once with no retry wrapper; on success it
runs the idempotent append, and on any failure, of the read or of the
backend call, it logs and discards the task leaving the store
unchanged; the embedding is a total function, so no failure propagates
to a caller. -/
theorem c8_worker : ∀ (backend : Nat → Except String (List Char))
    (audio : Except String (List Char)) (content : List Char) (i : Nat) (q : List Char),
    (∀ b t, audio = .ok b → backend 1 = .ok t →
      process_audio_async_model backend audio content i q = appendTS content i q t) ∧
    (∀ ea, audio = .error ea → process_audio_async_model backend audio content i q = content) ∧
    (∀ b et, audio = .ok b → backend 1 = .error et →
      process_audio_async_model backend audio content i q = content) := by
  intro backend audio content i q
  refine ⟨?_, ?_, ?_⟩
  · intro b t ha hb
    simp [process_audio_async_model, ha, hb]
  · intro ea ha
    simp [process_audio_async_model, ha]
  · intro b et ha hb
    simp [process_audio_async_model, ha, hb]

/-- Witness for C8 at a succeeding backend and audio read. -/
theorem c8_witness :
    process_audio_async_model (fun _ => .ok ['t']) (.ok ['b']) [] 0 ['q'] =
      appendTS [] 0 ['q'] ['t'] :=
  (c8_worker (fun _ => .ok ['t']) (.ok ['b']) [] 0 ['q']).1 ['b'] ['t'] rfl rfl

/-- Claim C9: a warehouse failure inside the duplicate-interview check
yields false, and login then proceeds to create a fresh session, even
when the results table does hold a row for the candidate. -/
theorem c9_dup_check_error_bypass : ∀ (e : String) (c : Candidate)
    (qs : List (List Char)) (table : List Row),
    (∃ r ∈ table, r.candidate_id = c.id) →
    check_duplicate_interview (.error e) = false ∧
    login (check_duplicate_interview (.error e)) (some c) (.ok qs) =
      .ok (.started ⟨c, qs, 0, []⟩) := by
  intro e c qs table _
  exact ⟨rfl, rfl⟩

/-- Witness for C9 at a table that already holds a row for id 101. -/
theorem c9_witness :
    check_duplicate_interview (.error "connection reset") = false ∧
    login (check_duplicate_interview (.error "connection reset"))
      (some ⟨101, "n", "e", "p", "r"⟩) (.ok [['q']]) =
      .ok (.started ⟨⟨101, "n", "e", "p", "r"⟩, [['q']], 0, []⟩) :=
  c9_dup_check_error_bypass "connection reset" ⟨101, "n", "e", "p", "r"⟩ [['q']]
    [⟨101, "n", "e", "p", [], 0, "s"⟩] ⟨⟨101, "n", "e", "p", [], 0, "s"⟩, by simp, rfl⟩

/-- Counterexample for C10 as stated: the degraded row for candidate 101
is persisted, yet a subsequent start whose duplicate-check query fails
is not rejected and creates a session, so not every subsequent start is
rejected. -/
theorem c10_counterexample :
    (insertRows [] (resultsRow ⟨101, "n", "e", "p", "r"⟩ [] (.error "score fail"))).length = 1 ∧
    (resultsRow ⟨101, "n", "e", "p", "r"⟩ [] (.error "score fail")).candidate_id = 101 ∧
    check_duplicate_interview (.error "bq down") = false ∧
    login (check_duplicate_interview (.error "bq down")) (some ⟨101, "n", "e", "p", "r"⟩)
      (.ok [['q']]) = .ok (.started ⟨⟨101, "n", "e", "p", "r"⟩, [['q']], 0, []⟩) :=
  ⟨rfl, rfl, rfl, rfl⟩

/-- Claim C10 (amended): the evaluation row is inserted on the degraded
path too, carrying score zero, the error summary and the candidate id,
and every subsequent start whose duplicate-check query reaches the
table is rejected as already interviewed. -/
theorem c10_degraded_insert_blocks : ∀ (table : List Row) (info : Candidate)
    (ftext : List Char) (e : String) (info2 : Option Candidate)
    (gen : Except String (List (List Char))),
    (resultsRow info ftext (.error e)).final_score = 0 ∧
    (resultsRow info ftext (.error e)).summarised_feedback = "Evaluation error." ∧
    (resultsRow info ftext (.error e)).candidate_id = info.id ∧
    check_duplicate_interview
      (.ok (queryDup (insertRows table (resultsRow info ftext (.error e))) info.id)) = true ∧
    login (check_duplicate_interview
        (.ok (queryDup (insertRows table (resultsRow info ftext (.error e))) info.id)))
      info2 gen = .ok .alreadyDone := by
  intro table info ftext e info2 gen
  have hrow : ((resultsRow info ftext (.error e)).candidate_id == info.id) = true := by
    simp [resultsRow]
  have hq : 0 < (queryDup (insertRows table (resultsRow info ftext (.error e))) info.id).length := by
    simp only [queryDup, insertRows, List.filter_append, List.map_append, List.filter_cons,
      hrow, if_true, List.filter_nil, List.map_cons, List.map_nil, List.length_take,
      List.length_append, List.length_cons, List.length_nil]
    omega
  have hcd : check_duplicate_interview
      (.ok (queryDup (insertRows table (resultsRow info ftext (.error e))) info.id)) = true := by
    simp [check_duplicate_interview, hq]
  refine ⟨rfl, rfl, rfl, hcd, ?_⟩
  rw [hcd]
  rfl

end ATS
